import Mathlib

/-!
# Verification of `enfugue.diffusion.engine` / `enfugue.diffusion.manager`

A shallow embedding, in Lean 4, of the controller-side request/response
protocol (`DiffusionEngine` in `engine.py`) and of the pipeline cache /
lifecycle logic (`DiffusionPipelineManager` in `manager.py`), together with
theorems settling the specification claims about them.

Modelling conventions:
* Python `str` values are modelled as `List Char` (`Str`), compared
  codepoint-wise exactly as Python compares strings.
* Python `sorted(..., key=...)` is a stable sort; it is modelled by
  `List.insertionSort`, which computes the same stable result.
* `hashlib.md5(x).hexdigest()` is an external collaborator; the digest is
  modelled as the canonical pre-hash string `x` itself.  Equal strings give
  equal digests under the real hash as well, so every key-equality proved
  here transfers unconditionally; key inequalities transfer under the
  standing collision-freeness assumption for the hash.
* Floats that are only compared or rendered are modelled as `ℚ` (for
  arithmetic) or as their rendered string (when only `str()` is applied).
-/

/-- Python strings, modelled as their list of characters. -/
abbrev Str := List Char

/-- Python's `<` on strings: codepoint-lexicographic comparison, where a
proper leading piece of a string compares below the longer string. -/
def strLt : Str → Str → Bool
  | _, [] => false
  | [], _ :: _ => true
  | a :: as, b :: bs => decide (a < b) || (a == b && strLt as bs)

/-- Python's `<=` on strings (total preorder used by `sorted`). -/
def strLe (a b : Str) : Bool := !(strLt b a)

theorem strLt_irrefl : ∀ a : Str, strLt a a = false := by
  intro a
  induction a with
  | nil => rfl
  | cons x xs ih => simp [strLt, ih]

theorem strLt_asymm : ∀ {a b : Str}, strLt a b = true → strLt b a = false := by
  intro a
  induction a with
  | nil =>
    intro b h
    cases b with
    | nil => simpa [strLt] using h
    | cons y ys => rfl
  | cons x xs ih =>
    intro b h
    cases b with
    | nil => simpa [strLt] using h
    | cons y ys =>
      simp only [strLt, Bool.or_eq_true, Bool.and_eq_true, decide_eq_true_eq,
        beq_iff_eq] at h
      simp only [strLt, Bool.or_eq_false_iff, Bool.and_eq_false_iff,
        decide_eq_false_iff_not, beq_eq_false_iff_ne, ne_eq]
      rcases h with h | ⟨rfl, h⟩
      · exact ⟨not_lt_of_lt h, Or.inl fun hyx => absurd hyx.symm (ne_of_lt h)⟩
      · exact ⟨lt_irrefl x, Or.inr (ih h)⟩

theorem strLt_trans :
    ∀ {a b c : Str}, strLt a b = true → strLt b c = true → strLt a c = true := by
  intro a
  induction a with
  | nil =>
    intro b c hab hbc
    cases b with
    | nil => simpa [strLt] using hab
    | cons y ys =>
      cases c with
      | nil => simpa [strLt] using hbc
      | cons z zs => rfl
  | cons x xs ih =>
    intro b c hab hbc
    cases b with
    | nil => simpa [strLt] using hab
    | cons y ys =>
      cases c with
      | nil => simpa [strLt] using hbc
      | cons z zs =>
        simp only [strLt, Bool.or_eq_true, Bool.and_eq_true, decide_eq_true_eq,
          beq_iff_eq] at hab hbc ⊢
        rcases hab with hab | ⟨rfl, hab⟩
        · rcases hbc with hbc | ⟨rfl, hbc⟩
          · exact Or.inl (lt_trans hab hbc)
          · exact Or.inl hab
        · rcases hbc with hbc | ⟨rfl, hbc⟩
          · exact Or.inl hbc
          · exact Or.inr ⟨rfl, ih hab hbc⟩

theorem strLt_connex :
    ∀ {a b : Str}, strLt a b = false → strLt b a = false → a = b := by
  intro a
  induction a with
  | nil =>
    intro b hab _
    cases b with
    | nil => rfl
    | cons y ys => simp [strLt] at hab
  | cons x xs ih =>
    intro b hab hba
    cases b with
    | nil => simp [strLt] at hba
    | cons y ys =>
      simp only [strLt, Bool.or_eq_false_iff, Bool.and_eq_false_iff,
        decide_eq_false_iff_not, beq_eq_false_iff_ne, ne_eq] at hab hba
      obtain ⟨hxy, hab'⟩ := hab
      obtain ⟨hyx, hba'⟩ := hba
      have hxyeq : x = y := le_antisymm (not_lt.mp hyx) (not_lt.mp hxy)
      subst hxyeq
      rcases hab' with h | hab'
      · exact absurd rfl h
      rcases hba' with h | hba'
      · exact absurd rfl h
      rw [ih hab' hba']

/-- A `(name, strength)` tuple as passed to the cache-key functions; the
strength is kept as the string `str()` renders it to. -/
abbrev LoraPair := Str × Str

/-- The comparison `sorted(lora, key=lambda lora_part: lora_part[0])` sorts
by: the first tuple component is not above the other's. -/
def pairLe (p q : LoraPair) : Prop := strLt q.1 p.1 = false

/-- Order on plain strings used for `sorted(inversion)`. -/
def invLe (a b : Str) : Prop := strLt b a = false

/-- Strict name order on pairs, used to identify stably sorted lists. -/
def pairNameLt (p q : LoraPair) : Prop := strLt p.1 q.1 = true

instance : DecidableRel pairLe := fun _ _ => instDecidableEqBool _ _

instance : DecidableRel invLe := fun _ _ => instDecidableEqBool _ _

instance : IsTotal LoraPair pairLe := by
  constructor
  intro a b
  cases h : strLt b.1 a.1 with
  | false => exact Or.inl h
  | true => exact Or.inr (strLt_asymm h)

instance : IsTrans LoraPair pairLe := by
  constructor
  intro a b c hba hcb
  cases hca : strLt c.1 a.1 with
  | false => exact hca
  | true =>
    exfalso
    cases hbc : strLt b.1 c.1 with
    | true => exact absurd (strLt_trans hbc hca) (by simp [pairLe] at hba; simp [hba])
    | false =>
      have hcb' : c.1 = b.1 := strLt_connex hcb hbc
      rw [hcb'] at hca
      simp [pairLe] at hba
      simp [hba] at hca

instance : IsTotal Str invLe := by
  constructor
  intro a b
  cases h : strLt b a with
  | false => exact Or.inl h
  | true => exact Or.inr (strLt_asymm h)

instance : IsTrans Str invLe := by
  constructor
  intro a b c hba hcb
  cases hca : strLt c a with
  | false => exact hca
  | true =>
    exfalso
    cases hbc : strLt b c with
    | true => exact absurd (strLt_trans hbc hca) (by simp [invLe] at hba; simp [hba])
    | false =>
      have hcb' : c = b := strLt_connex hcb hbc
      rw [hcb'] at hca
      simp [invLe] at hba
      simp [hba] at hca

instance : IsAntisymm Str invLe := by
  constructor
  intro a b hab hba
  exact strLt_connex hba hab

instance : IsAntisymm LoraPair pairNameLt := by
  constructor
  intro a b hab hba
  exact absurd hba (by simp [pairNameLt, strLt_asymm hab])

/-- `"=".join([str(part) for part in lora_weight])` for a 2-tuple. -/
def renderPair (p : LoraPair) : Str := p.1 ++ '=' :: p.2

/-- The sorted-and-rendered auxiliary-weight segment:
`":".join("=".join(...) for ... in sorted(lst, key=lambda part: part[0]))`. -/
def renderPairList (l : List LoraPair) : Str :=
  List.intercalate [':'] ((List.insertionSort pairLe l).map renderPair)

/-- The textual-inversion segment `":".join(sorted(inversion))`. -/
def renderInvList (l : List Str) : Str :=
  List.intercalate [':'] (List.insertionSort invLe l)

/-- One decimal digit as `str()` renders it. -/
def digitCh (d : Nat) : Char := Char.ofNat (48 + d)

/-- `str(size)` for a non-negative integer: decimal digits, modelled with a
fuel-driven recursion (`n + 1` is always enough fuel). -/
def natStrGo : Nat → Nat → Str
  | 0, _ => []
  | fuel + 1, n => if n < 10 then [digitCh n] else natStrGo fuel (n / 10) ++ [digitCh (n % 10)]

/-- `str(size)`. -/
def natStr (n : Nat) : Str := natStrGo (n + 1) n

/-- The canonical pre-hash string of `DiffusionPipelineManager.get_unet_key`:
`"-".join([str(size), lora-segment, lycoris-segment, inversion-segment])`.
The source returns `md5(...).hexdigest()` of this string; the digest is
modelled as the string itself (see the header note on hashing). -/
def get_unet_key (size : Nat) (lora : List LoraPair) (lycoris : List LoraPair)
    (inversion : List Str) : Str :=
  List.intercalate ['-']
    [natStr size, renderPairList lora, renderPairList lycoris, renderInvList inversion]

/-- `DiffusionPipelineManager.get_clip_key`: its body is character-for-character
identical to `get_unet_key`'s. -/
def get_clip_key (size : Nat) (lora : List LoraPair) (lycoris : List LoraPair)
    (inversion : List Str) : Str :=
  List.intercalate ['-']
    [natStr size, renderPairList lora, renderPairList lycoris, renderInvList inversion]

/-- `DiffusionPipelineManager.get_controlled_unet_key`: again the identical body. -/
def get_controlled_unet_key (size : Nat) (lora : List LoraPair) (lycoris : List LoraPair)
    (inversion : List Str) : Str :=
  List.intercalate ['-']
    [natStr size, renderPairList lora, renderPairList lycoris, renderInvList inversion]

theorem natStrGo_fuel :
    ∀ n f : Nat, n < f → natStrGo f n = natStrGo (n + 1) n := by
  intro n
  induction n using Nat.strong_induction_on with
  | _ n ih =>
    intro f hf
    match f with
    | f + 1 =>
      by_cases h10 : n < 10
      · simp [natStrGo, h10]
      · have hdivlt : n / 10 < n := Nat.div_lt_self (by omega) (by omega)
        have h1 : natStrGo f (n / 10) = natStrGo (n / 10 + 1) (n / 10) :=
          ih (n / 10) hdivlt f (by omega)
        have h2 : natStrGo n (n / 10) = natStrGo (n / 10 + 1) (n / 10) :=
          ih (n / 10) hdivlt n (by omega)
        simp [natStrGo, h10, h1, h2]

theorem natStr_eq (n : Nat) :
    natStr n = if n < 10 then [digitCh n] else natStr (n / 10) ++ [digitCh (n % 10)] := by
  by_cases h10 : n < 10
  · simp [natStr, natStrGo, h10]
  · have hdivlt : n / 10 < n := Nat.div_lt_self (by omega) (by omega)
    simp [natStr, natStrGo, h10, natStrGo_fuel (n / 10) n hdivlt]

theorem natStr_ne_nil (n : Nat) : natStr n ≠ [] := by
  rw [natStr_eq]
  by_cases h10 : n < 10 <;> simp [h10]

theorem digitCh_inj :
    ∀ a : Nat, a < 10 → ∀ b : Nat, b < 10 → digitCh a = digitCh b → a = b := by decide

theorem natStr_inj : ∀ {m n : Nat}, natStr m = natStr n → m = n := by
  intro m
  induction m using Nat.strong_induction_on with
  | _ m ih =>
    intro n h
    rw [natStr_eq m, natStr_eq n] at h
    by_cases hm : m < 10 <;> by_cases hn : n < 10
    · simp only [hm, hn, if_true] at h
      exact digitCh_inj m hm n hn (List.singleton_inj.mp h)
    · exfalso
      simp only [hm, hn, if_true, if_false] at h
      have h' : natStr (n / 10) ++ [digitCh (n % 10)] = [] ++ [digitCh m] := by
        simpa using h.symm
      exact natStr_ne_nil (n / 10) (List.append_inj' h' rfl).1
    · exfalso
      simp only [hm, hn, if_true, if_false] at h
      have h' : natStr (m / 10) ++ [digitCh (m % 10)] = [] ++ [digitCh n] := by
        simpa using h
      exact natStr_ne_nil (m / 10) (List.append_inj' h' rfl).1
    · simp only [hm, hn, if_false] at h
      obtain ⟨h1, h2⟩ := List.append_inj' h rfl
      have hdiv : m / 10 = n / 10 :=
        ih (m / 10) (Nat.div_lt_self (by omega) (by omega)) h1
      have hmod : m % 10 = n % 10 :=
        digitCh_inj _ (Nat.mod_lt _ (by omega)) _ (Nat.mod_lt _ (by omega))
          (List.singleton_inj.mp h2)
      omega

theorem append_sep_inj {c : Char} :
    ∀ {a1 a2 b1 b2 : Str}, c ∉ a1 → c ∉ a2 →
      a1 ++ c :: b1 = a2 ++ c :: b2 → a1 = a2 ∧ b1 = b2 := by
  intro a1
  induction a1 with
  | nil =>
    intro a2 b1 b2 _ h2 h
    cases a2 with
    | nil => simpa using h
    | cons x xs =>
      exfalso
      simp only [List.nil_append, List.cons_append, List.cons.injEq] at h
      exact h2 (h.1 ▸ List.mem_cons_self x xs)
  | cons x xs ihx =>
    intro a2 b1 b2 h1 h2 h
    cases a2 with
    | nil =>
      exfalso
      simp only [List.nil_append, List.cons_append, List.cons.injEq] at h
      exact h1 (h.1.symm ▸ List.mem_cons_self x xs)
    | cons y ys =>
      simp only [List.cons_append, List.cons.injEq] at h
      obtain ⟨rfl, h⟩ := h
      obtain ⟨hxa, hb⟩ := ihx (fun hc => h1 (List.mem_cons_of_mem _ hc))
        (fun hc => h2 (List.mem_cons_of_mem _ hc)) h
      exact ⟨by rw [hxa], hb⟩

/-- A pair whose contents cannot collide with the `:` join separator (names
colon-free) nor with the `=` name/strength separator (strengths `=`-free). -/
def GoodPair (p : LoraPair) : Prop := ':' ∉ p.1 ∧ ':' ∉ p.2 ∧ '=' ∉ p.2

/-- A textual-inversion list whose entries are colon-free. -/
def GoodInv (l : List Str) : Prop := ∀ s ∈ l, ':' ∉ s

theorem renderPair_inj {p q : LoraPair} (hp : GoodPair p) (hq : GoodPair q)
    (h : renderPair p = renderPair q) : p = q := by
  have hrev : p.2.reverse ++ '=' :: p.1.reverse = q.2.reverse ++ '=' :: q.1.reverse := by
    have := congrArg List.reverse h
    simpa [renderPair, List.reverse_append] using this
  obtain ⟨h2, h1⟩ := append_sep_inj (by simpa using hp.2.2) (by simpa using hq.2.2) hrev
  have e1 : p.1 = q.1 := by
    have := congrArg List.reverse h1
    simpa using this
  have e2 : p.2 = q.2 := by
    have := congrArg List.reverse h2
    simpa using this
  exact Prod.ext e1 e2

theorem colon_not_mem_renderPair {p : LoraPair} (hp : GoodPair p) : ':' ∉ renderPair p := by
  simp only [renderPair, List.mem_append, List.mem_cons]
  rintro (h | h | h)
  · exact hp.1 h
  · exact absurd h (by decide)
  · exact hp.2.1 h

theorem map_eq_map_inj {α β : Type} {f : α → β} :
    ∀ {l1 l2 : List α}, (∀ a ∈ l1, ∀ b ∈ l2, f a = f b → a = b) →
      l1.map f = l2.map f → l1 = l2 := by
  intro l1
  induction l1 with
  | nil =>
    intro l2 _ h
    cases l2 with
    | nil => rfl
    | cons y ys => simp at h
  | cons x xs ihx =>
    intro l2 hinj h
    cases l2 with
    | nil => simp at h
    | cons y ys =>
      simp only [List.map_cons, List.cons.injEq] at h
      have hxy : x = y := hinj x (List.mem_cons_self x xs) y (List.mem_cons_self y ys) h.1
      have : xs = ys := ihx
        (fun a ha b hb => hinj a (List.mem_cons_of_mem _ ha) b (List.mem_cons_of_mem _ hb)) h.2
      rw [hxy, this]

/-- All pairs of a list are collision-safe with respect to the separators. -/
def GoodPairs (l : List LoraPair) : Prop := ∀ p ∈ l, GoodPair p

instance (p : LoraPair) : Decidable (GoodPair p) :=
  inferInstanceAs (Decidable (_ ∧ _ ∧ _))

instance (l : List LoraPair) : Decidable (GoodPairs l) :=
  inferInstanceAs (Decidable (∀ p ∈ l, GoodPair p))

instance (l : List Str) : Decidable (GoodInv l) :=
  inferInstanceAs (Decidable (∀ s ∈ l, ':' ∉ s))

theorem sorted_pairNameLt {l : List LoraPair} (hnd : (l.map Prod.fst).Nodup) :
    List.Sorted pairNameLt (List.insertionSort pairLe l) := by
  have hle : List.Sorted pairLe (List.insertionSort pairLe l) :=
    List.sorted_insertionSort pairLe l
  have hndmap : ((List.insertionSort pairLe l).map Prod.fst).Nodup :=
    (((List.perm_insertionSort pairLe l).map Prod.fst).nodup_iff).mpr hnd
  have hne : (List.insertionSort pairLe l).Pairwise (fun a b : LoraPair => a.1 ≠ b.1) :=
    List.pairwise_map.mp hndmap
  refine (hle.and hne).imp ?_
  intro a b hab
  cases h : strLt a.1 b.1 with
  | true => exact h
  | false => exact absurd (strLt_connex h hab.1) hab.2

theorem insertionSort_pair_eq_of_perm {l1 l2 : List LoraPair} (h : l1.Perm l2)
    (hnd : (l1.map Prod.fst).Nodup) :
    List.insertionSort pairLe l1 = List.insertionSort pairLe l2 := by
  have hnd2 : (l2.map Prod.fst).Nodup := ((h.map Prod.fst).nodup_iff).mp hnd
  exact List.eq_of_perm_of_sorted
    ((List.perm_insertionSort pairLe l1).trans (h.trans (List.perm_insertionSort pairLe l2).symm))
    (sorted_pairNameLt hnd) (sorted_pairNameLt hnd2)

theorem insertionSort_inv_eq_of_perm {l1 l2 : List Str} (h : l1.Perm l2) :
    List.insertionSort invLe l1 = List.insertionSort invLe l2 :=
  List.eq_of_perm_of_sorted
    ((List.perm_insertionSort invLe l1).trans (h.trans (List.perm_insertionSort invLe l2).symm))
    (List.sorted_insertionSort invLe l1) (List.sorted_insertionSort invLe l2)

theorem count_single_diff {α : Type} [DecidableEq α] {pre post : List α} {p q : α}
    (h : (pre ++ p :: post).Perm (pre ++ q :: post)) : p = q := by
  by_contra hne
  have hc := h.count_eq p
  rw [List.count_append, List.count_append, List.count_cons_self,
    List.count_cons_of_ne hne] at hc
  omega

theorem renderPairList_perm_of_eq {l1 l2 : List LoraPair} (h1 : l1 ≠ []) (h2 : l2 ≠ [])
    (hg1 : GoodPairs l1) (hg2 : GoodPairs l2)
    (h : renderPairList l1 = renderPairList l2) : l1.Perm l2 := by
  have piece1 : ∀ s ∈ (List.insertionSort pairLe l1).map renderPair, ':' ∉ s := by
    intro s hs
    rw [List.mem_map] at hs
    obtain ⟨p, hp, rfl⟩ := hs
    exact colon_not_mem_renderPair (hg1 p ((List.mem_insertionSort pairLe).mp hp))
  have piece2 : ∀ s ∈ (List.insertionSort pairLe l2).map renderPair, ':' ∉ s := by
    intro s hs
    rw [List.mem_map] at hs
    obtain ⟨p, hp, rfl⟩ := hs
    exact colon_not_mem_renderPair (hg2 p ((List.mem_insertionSort pairLe).mp hp))
  have ne1 : (List.insertionSort pairLe l1).map renderPair ≠ [] := by
    simp only [ne_eq, List.map_eq_nil_iff]
    intro hc
    exact h1 (List.length_eq_zero.mp
      (by rw [← List.length_insertionSort pairLe l1, hc]; rfl))
  have ne2 : (List.insertionSort pairLe l2).map renderPair ≠ [] := by
    simp only [ne_eq, List.map_eq_nil_iff]
    intro hc
    exact h2 (List.length_eq_zero.mp
      (by rw [← List.length_insertionSort pairLe l2, hc]; rfl))
  have s1 := List.splitOn_intercalate _ ':' piece1 ne1
  have s2 := List.splitOn_intercalate _ ':' piece2 ne2
  have e : (List.insertionSort pairLe l1).map renderPair
      = (List.insertionSort pairLe l2).map renderPair := by
    rw [← s1, ← s2]
    exact congrArg (List.splitOn ':') h
  have esort : List.insertionSort pairLe l1 = List.insertionSort pairLe l2 := by
    refine map_eq_map_inj ?_ e
    intro a ha b hb hab
    exact renderPair_inj (hg1 a ((List.mem_insertionSort pairLe).mp ha))
      (hg2 b ((List.mem_insertionSort pairLe).mp hb)) hab
  have hfin : (List.insertionSort pairLe l1).Perm l2 := by
    rw [esort]
    exact List.perm_insertionSort pairLe l2
  exact (List.perm_insertionSort pairLe l1).symm.trans hfin

theorem renderInvList_perm_of_eq {l1 l2 : List Str} (h1 : l1 ≠ []) (h2 : l2 ≠ [])
    (hg1 : GoodInv l1) (hg2 : GoodInv l2)
    (h : renderInvList l1 = renderInvList l2) : l1.Perm l2 := by
  have piece1 : ∀ s ∈ List.insertionSort invLe l1, ':' ∉ s := by
    intro s hs
    exact hg1 s ((List.mem_insertionSort invLe).mp hs)
  have piece2 : ∀ s ∈ List.insertionSort invLe l2, ':' ∉ s := by
    intro s hs
    exact hg2 s ((List.mem_insertionSort invLe).mp hs)
  have ne1 : List.insertionSort invLe l1 ≠ [] := by
    intro hc
    exact h1 (List.length_eq_zero.mp
      (by rw [← List.length_insertionSort invLe l1, hc]; rfl))
  have ne2 : List.insertionSort invLe l2 ≠ [] := by
    intro hc
    exact h2 (List.length_eq_zero.mp
      (by rw [← List.length_insertionSort invLe l2, hc]; rfl))
  have s1 := List.splitOn_intercalate _ ':' piece1 ne1
  have s2 := List.splitOn_intercalate _ ':' piece2 ne2
  have esort : List.insertionSort invLe l1 = List.insertionSort invLe l2 := by
    rw [← s1, ← s2]
    exact congrArg (List.splitOn ':') h
  have hfin : (List.insertionSort invLe l1).Perm l2 := by
    rw [esort]
    exact List.perm_insertionSort invLe l2
  exact (List.perm_insertionSort invLe l1).symm.trans hfin

theorem get_unet_key_unfold (s : Nat) (lo ly : List LoraPair) (iv : List Str) :
    get_unet_key s lo ly iv =
      natStr s ++ '-' :: (renderPairList lo ++ '-' :: (renderPairList ly
        ++ '-' :: renderInvList iv)) := by
  simp [get_unet_key, List.intercalate]

/-- **C2, counterexample.**  The claim "permutations of the auxiliary-weight
lists give identical digests, and inputs differing in a single element give
different digests" is false for `get_unet_key` as implemented:
(1) the two lora lists below differ in exactly their second element, yet the
canonical pre-hash strings (and hence the md5 digests) are identical, because
`:`/`=` characters inside a name collide with the join separators; and
(2) the two duplicate-name lists below are permutations of each other, yet
their canonical strings differ, because the stable sort keys only on the name
and so preserves the two different input orders of the equal-name entries. -/
theorem c2_cache_key_counterexample :
    ((("b=2.0:a".data, "1.0".data) : LoraPair) ≠ ("a=1.0:b".data, "2.0".data)
      ∧ get_unet_key 512
            [("a=1.0:b=2.0:a".data, "1.0".data), ("b=2.0:a".data, "1.0".data)] [] []
          = get_unet_key 512
            [("a=1.0:b=2.0:a".data, "1.0".data), ("a=1.0:b".data, "2.0".data)] [] [])
    ∧ (List.Perm [(("a".data, "1.0".data) : LoraPair), ("a".data, "2.0".data)]
          [("a".data, "2.0".data), ("a".data, "1.0".data)]
      ∧ get_unet_key 512 [("a".data, "1.0".data), ("a".data, "2.0".data)] [] []
          ≠ get_unet_key 512 [("a".data, "2.0".data), ("a".data, "1.0".data)] [] []) :=
  ⟨⟨by decide, by rfl⟩, ⟨by decide, by decide⟩⟩

/-- **C2, amended.**  For the three (identical) cache-key functions, with the
digest modelled as the canonical pre-hash string: permutations of the
auxiliary-weight lists yield identical keys provided the names inside each
pair list are duplicate-free; and a single-element difference (in the size, in
one lora pair, in one lycoris pair, or in one inversion entry) yields
different keys provided names/strength-renderings are free of the `:` join
separator and strength renderings are free of the `=` separator (as every
`str(float)` rendering is). -/
theorem c2_cache_key_amended :
    (get_clip_key = get_unet_key ∧ get_controlled_unet_key = get_unet_key)
    ∧ (∀ (size : Nat) (lora lora' lycoris lycoris' : List LoraPair)
          (inversion inversion' : List Str),
        lora.Perm lora' → lycoris.Perm lycoris' → inversion.Perm inversion' →
        (lora.map Prod.fst).Nodup → (lycoris.map Prod.fst).Nodup →
        get_unet_key size lora lycoris inversion
          = get_unet_key size lora' lycoris' inversion')
    ∧ (∀ (size size' : Nat) (lora lycoris : List LoraPair) (inversion : List Str),
        size ≠ size' →
        get_unet_key size lora lycoris inversion
          ≠ get_unet_key size' lora lycoris inversion)
    ∧ (∀ (size : Nat) (pre post : List LoraPair) (p q : LoraPair)
          (lycoris : List LoraPair) (inversion : List Str), p ≠ q →
        GoodPairs (pre ++ p :: post) → GoodPairs (pre ++ q :: post) →
        get_unet_key size (pre ++ p :: post) lycoris inversion
          ≠ get_unet_key size (pre ++ q :: post) lycoris inversion)
    ∧ (∀ (size : Nat) (lora : List LoraPair) (pre post : List LoraPair) (p q : LoraPair)
          (inversion : List Str), p ≠ q →
        GoodPairs (pre ++ p :: post) → GoodPairs (pre ++ q :: post) →
        get_unet_key size lora (pre ++ p :: post) inversion
          ≠ get_unet_key size lora (pre ++ q :: post) inversion)
    ∧ (∀ (size : Nat) (lora lycoris : List LoraPair) (pre post : List Str) (x y : Str),
        x ≠ y → GoodInv (pre ++ x :: post) → GoodInv (pre ++ y :: post) →
        get_unet_key size lora lycoris (pre ++ x :: post)
          ≠ get_unet_key size lora lycoris (pre ++ y :: post)) := by
  refine ⟨⟨rfl, rfl⟩, ?_, ?_, ?_, ?_, ?_⟩
  · intro size lora lora' lycoris lycoris' inversion inversion' hl hy hi hnl hny
    simp only [get_unet_key, renderPairList, renderInvList]
    rw [insertionSort_pair_eq_of_perm hl hnl, insertionSort_pair_eq_of_perm hy hny,
      insertionSort_inv_eq_of_perm hi]
  · intro size size' lora lycoris inversion hne hkey
    rw [get_unet_key_unfold, get_unet_key_unfold] at hkey
    have hlen := congrArg List.length hkey
    simp only [List.length_append, List.length_cons] at hlen
    exact hne (natStr_inj (List.append_inj hkey (by omega)).1)
  · intro size pre post p q lycoris inversion hpq hg1 hg2 hkey
    rw [get_unet_key_unfold, get_unet_key_unfold] at hkey
    have h1 := List.append_cancel_left hkey
    injection h1 with _ h1
    have h2 := (List.append_inj' h1 rfl).1
    exact hpq (count_single_diff
      (renderPairList_perm_of_eq (by simp) (by simp) hg1 hg2 h2))
  · intro size lora pre post p q inversion hpq hg1 hg2 hkey
    rw [get_unet_key_unfold, get_unet_key_unfold] at hkey
    have h1 := List.append_cancel_left hkey
    injection h1 with _ h1
    have h1 := List.append_cancel_left h1
    injection h1 with _ h1
    have h2 := (List.append_inj' h1 rfl).1
    exact hpq (count_single_diff
      (renderPairList_perm_of_eq (by simp) (by simp) hg1 hg2 h2))
  · intro size lora lycoris pre post x y hxy hg1 hg2 hkey
    rw [get_unet_key_unfold, get_unet_key_unfold] at hkey
    have h1 := List.append_cancel_left hkey
    injection h1 with _ h1
    have h1 := List.append_cancel_left h1
    injection h1 with _ h1
    have h1 := List.append_cancel_left h1
    injection h1 with _ h1
    exact hxy (count_single_diff
      (renderInvList_perm_of_eq (by simp) (by simp) hg1 hg2 h1))

/-- Closed witness for `c2_cache_key_amended`, applying it at concrete inputs:
a two-element permutation with distinct names gives equal keys, and a changed
size, or a changed strength in a singleton lora list, gives different keys. -/
theorem c2_cache_key_amended_witness :
    get_unet_key 512 [(['a'], ['1']), (['b'], ['2'])] [] [['t']]
        = get_unet_key 512 [(['b'], ['2']), (['a'], ['1'])] [] [['t']]
    ∧ get_unet_key 512 [(['a'], ['1'])] [] [] ≠ get_unet_key 640 [(['a'], ['1'])] [] []
    ∧ get_unet_key 512 [(['a'], ['1'])] [(['c'], ['3'])] [['t']]
        ≠ get_unet_key 512 [(['a'], ['2'])] [(['c'], ['3'])] [['t']] :=
  ⟨c2_cache_key_amended.2.1 512 [(['a'], ['1']), (['b'], ['2'])]
      [(['b'], ['2']), (['a'], ['1'])] [] [] [['t']] [['t']]
      (by decide) (by decide) (by decide) (by decide) (by decide),
    c2_cache_key_amended.2.2.1 512 640 [(['a'], ['1'])] [] [] (by decide),
    c2_cache_key_amended.2.2.2.1 512 [] [] (['a'], ['1']) (['a'], ['2'])
      [(['c'], ['3'])] [['t']] (by decide) (by decide) (by decide)⟩

/-- A deserialized envelope drained from the results channel.  The source
envelope is a dict `{id, result}` or `{id, error, message, trace?}`; the
`error` field (kind and message) is present exactly on the error path, and
`result` may itself be `None` (`Option.none`). -/
structure ResultEnvelope where
  id : Nat
  error : Option (String × String)
  trace : Option String
  result : Option Nat
deriving DecidableEq, Repr

/-- The loop state of `DiffusionEngine.wait`'s drain pass over one poll:
`to_raise`, `to_return`, the envelopes pushed back via `put_nowait`, and the
messages sent to `logger.error`. -/
structure DrainState where
  toRaise : Option (String × String)
  toReturn : Option Nat
  kept : List ResultEnvelope
  log : List String
deriving DecidableEq, Repr

/-- One envelope of the drained batch, processed as in `wait`'s `for` loop:
a matching error envelope overwrites `to_raise` (logging any trace), a
matching plain envelope overwrites `to_return` with its `result` value, and a
non-matching envelope is pushed back onto the results channel. -/
def drainStep (id : Nat) (st : DrainState) (e : ResultEnvelope) : DrainState :=
  if e.id = id then
    match e.error with
    | some (kind, msg) =>
      { st with toRaise := some (kind, msg), log := st.log ++ e.trace.toList }
    | none => { st with toReturn := e.result }
  else { st with kept := st.kept ++ [e] }

/-- Process a whole drained batch (the `all_results` list, in drain order). -/
def drainResults (id : Nat) (envs : List ResultEnvelope) : DrainState :=
  envs.foldl (drainStep id) ⟨none, none, [], []⟩

/-- What one poll of `wait` does after the drain: raise the reconstructed
exception if `to_raise` was set, else return `to_return` if it is not `None`,
else fall through to the next poll. -/
inductive WaitOutcome where
  | raised (kind msg : String)
  | returned (r : Nat)
  | pending
deriving DecidableEq, Repr

/-- `wait`'s post-drain dispatch on the captured values. -/
def waitOutcome (st : DrainState) : WaitOutcome :=
  match st.toRaise with
  | some (k, m) => .raised k m
  | none =>
    match st.toReturn with
    | some r => .returned r
    | none => .pending

/-- One complete poll of `DiffusionEngine.wait` over the current contents of
the results channel: the outcome plus the channel contents it leaves behind. -/
def waitPoll (id : Nat) (envs : List ResultEnvelope) : WaitOutcome × List ResultEnvelope :=
  let st := drainResults id envs
  (waitOutcome st, st.kept)

theorem drainFold_kept (id : Nat) :
    ∀ (envs : List ResultEnvelope) (st : DrainState),
      (envs.foldl (drainStep id) st).kept
        = st.kept ++ envs.filter (fun e => e.id != id) := by
  intro envs
  induction envs with
  | nil => intro st; simp
  | cons e rest ih =>
    intro st
    rw [List.foldl_cons, ih]
    by_cases h : e.id = id
    · cases he : e.error with
      | none => simp [drainStep, h, he, List.filter_cons]
      | some km => simp [drainStep, h, he, List.filter_cons]
    · simp [drainStep, h, List.filter_cons]

theorem drainFold_capture_congr (id : Nat) :
    ∀ (envs : List ResultEnvelope) (st st' : DrainState),
      st.toRaise = st'.toRaise → st.toReturn = st'.toReturn → st.log = st'.log →
      (envs.foldl (drainStep id) st).toRaise = (envs.foldl (drainStep id) st').toRaise
      ∧ (envs.foldl (drainStep id) st).toReturn = (envs.foldl (drainStep id) st').toReturn
      ∧ (envs.foldl (drainStep id) st).log = (envs.foldl (drainStep id) st').log := by
  intro envs
  induction envs with
  | nil => intro st st' h1 h2 h3; exact ⟨h1, h2, h3⟩
  | cons e rest ih =>
    intro st st' h1 h2 h3
    rw [List.foldl_cons, List.foldl_cons]
    refine ih _ _ ?_ ?_ ?_
    · by_cases h : e.id = id
      · cases he : e.error with
        | none => simpa [drainStep, h, he] using h1
        | some km => simp [drainStep, h, he]
      · simpa [drainStep, h] using h1
    · by_cases h : e.id = id
      · cases he : e.error with
        | none => simp [drainStep, h, he]
        | some km => simpa [drainStep, h, he] using h2
      · simpa [drainStep, h] using h2
    · by_cases h : e.id = id
      · cases he : e.error with
        | none => simpa [drainStep, h, he] using h3
        | some km => simpa [drainStep, h, he] using h3
      · simpa [drainStep, h] using h3

theorem drainFold_capture (id : Nat) :
    ∀ (envs : List ResultEnvelope) (st : DrainState),
      (envs.foldl (drainStep id) st).toRaise
          = ((envs.filter (fun e => e.id == id)).foldl (drainStep id) st).toRaise
      ∧ (envs.foldl (drainStep id) st).toReturn
          = ((envs.filter (fun e => e.id == id)).foldl (drainStep id) st).toReturn
      ∧ (envs.foldl (drainStep id) st).log
          = ((envs.filter (fun e => e.id == id)).foldl (drainStep id) st).log := by
  intro envs
  induction envs with
  | nil => intro st; exact ⟨rfl, rfl, rfl⟩
  | cons e rest ih =>
    intro st
    rw [List.foldl_cons, List.filter_cons]
    by_cases h : e.id = id
    · simp only [h, beq_self_eq_true, if_true, List.foldl_cons]
      exact ih (drainStep id st e)
    · have hne : (e.id == id) = false := beq_eq_false_iff_ne.mpr h
      simp only [hne, Bool.false_eq_true, if_false]
      obtain ⟨h1, h2, h3⟩ := ih (drainStep id st e)
      obtain ⟨c1, c2, c3⟩ := drainFold_capture_congr id
        (rest.filter (fun e => e.id == id)) (drainStep id st e) st
        (by simp [drainStep, h]) (by simp [drainStep, h]) (by simp [drainStep, h])
      exact ⟨h1.trans c1, h2.trans c2, h3.trans c3⟩

/-- **C1.**  One poll of `wait(id)` over any contents of the results channel:
(1) exactly the envelopes with a different id are pushed back, in drain order
— none is discarded; (2) the outcome is computed only from the envelopes whose
id matches; (3) in particular, with results for ids 1, 2, 3 arriving in order
3, 1, 2, `wait(2)` returns id 2's payload and leaves ids 3 and 1 retrievable
by subsequent `wait(1)` / `wait(3)` polls. -/
theorem c1_wait_selective_requeue (id : Nat) (envs : List ResultEnvelope) :
    (waitPoll id envs).2 = envs.filter (fun e => e.id != id)
    ∧ (waitPoll id envs).1 = (waitPoll id (envs.filter (fun e => e.id == id))).1
    ∧ (waitPoll 2 [⟨3, none, none, some 33⟩, ⟨1, none, none, some 11⟩,
          ⟨2, none, none, some 22⟩]
        = (WaitOutcome.returned 22,
            [⟨3, none, none, some 33⟩, ⟨1, none, none, some 11⟩])
      ∧ waitPoll 1 [⟨3, none, none, some 33⟩, ⟨1, none, none, some 11⟩]
        = (WaitOutcome.returned 11, [⟨3, none, none, some 33⟩])
      ∧ waitPoll 3 [⟨3, none, none, some 33⟩] = (WaitOutcome.returned 33, [])) := by
  refine ⟨?_, ?_, by decide, by decide, by decide⟩
  · simpa using drainFold_kept id envs ⟨none, none, [], []⟩
  · obtain ⟨h1, h2, _⟩ := drainFold_capture id envs ⟨none, none, [], []⟩
    simp only [waitPoll, waitOutcome, drainResults]
    rw [h1, h2]

/-- **C8.**  A completing `wait(id)` poll whose drained batch holds exactly one
envelope for `id` surfaces exactly one of a result or an exception: if the
envelope carries an `error` field, the outcome is the reconstructed exception
built from the carried kind and message — the trace is only appended to the
log, and the `raised` outcome has no trace component; otherwise the outcome
returns the envelope's `result` value (pending if that value is `None`). -/
theorem c8_wait_result_xor_exception (id : Nat) (envs : List ResultEnvelope)
    (e : ResultEnvelope) (h : envs.filter (fun x => x.id == id) = [e]) :
    (∀ kind msg, e.error = some (kind, msg) →
        (waitPoll id envs).1 = WaitOutcome.raised kind msg
        ∧ (drainResults id envs).log = e.trace.toList)
    ∧ (e.error = none →
        (waitPoll id envs).1 =
          (match e.result with
            | some r => WaitOutcome.returned r
            | none => WaitOutcome.pending)) := by
  have hid : e.id = id := by
    have hm : e ∈ envs.filter (fun x => x.id == id) := by
      rw [h]
      exact List.mem_singleton_self e
    simpa using (List.mem_filter.mp hm).2
  obtain ⟨h1, h2, h3⟩ := drainFold_capture id envs ⟨none, none, [], []⟩
  rw [h] at h1 h2 h3
  constructor
  · intro kind msg he
    constructor
    · simp [waitPoll, waitOutcome, drainResults, h1, List.foldl_cons, drainStep, hid, he]
    · simp [drainResults, h3, List.foldl_cons, drainStep, hid, he]
  · intro he
    cases hr : e.result with
    | none =>
      simp [waitPoll, waitOutcome, drainResults, h1, h2, List.foldl_cons, drainStep,
        hid, he, hr]
    | some r =>
      simp [waitPoll, waitOutcome, drainResults, h1, h2, List.foldl_cons, drainStep,
        hid, he, hr]

/-- Closed witness for `c8_wait_result_xor_exception`: a mixed channel where
the matching envelope is an error one (the exception is raised, the trace only
logged), and a channel whose matching envelope carries a result. -/
theorem c8_wait_result_xor_exception_witness :
    (waitPoll 7 [⟨5, none, none, some 1⟩,
        ⟨7, some ("ValueError", "boom"), some "tb", none⟩]).1
      = WaitOutcome.raised "ValueError" "boom"
    ∧ (drainResults 7 [⟨5, none, none, some 1⟩,
        ⟨7, some ("ValueError", "boom"), some "tb", none⟩]).log = ["tb"]
    ∧ (waitPoll 7 [⟨7, none, none, some 42⟩]).1 = WaitOutcome.returned 42 := by
  have ha := c8_wait_result_xor_exception 7
    [⟨5, none, none, some 1⟩, ⟨7, some ("ValueError", "boom"), some "tb", none⟩]
    ⟨7, some ("ValueError", "boom"), some "tb", none⟩ (by decide)
  have hb := c8_wait_result_xor_exception 7 [⟨7, none, none, some 42⟩]
    ⟨7, none, none, some 42⟩ (by decide)
  exact ⟨(ha.1 "ValueError" "boom" rfl).1, (ha.1 "ValueError" "boom" rfl).2,
    hb.2 rfl⟩

/-- The controller-side state of a `DiffusionEngine`: the `process` attribute
(absent, or present with its liveness), and the three channel attributes
(`_instructions`, `_results`, `_intermediates`), each absent or present with
its queued contents. -/
structure EngineState where
  process : Option Bool
  instructions : Option (List Nat)
  results : Option (List ResultEnvelope)
  intermediates : Option (List Nat)
deriving DecidableEq, Repr

/-- `terminate_process` invoked on a state whose worker is already dead: the
stop/kill escalation is skipped and the `del` statements remove the process
and all three channels. -/
def cleanupDead : EngineState :=
  ⟨none, none, none, none⟩

/-- `DiffusionEngine.is_alive`: no `process` attribute is plain `False`; a
present-but-dead process triggers `terminate_process` (which deletes the
process and the three channels) as a side effect and returns `False`. -/
def is_alive (st : EngineState) : Bool × EngineState :=
  match st.process with
  | none => (false, st)
  | some alive => if alive then (true, st) else (false, cleanupDead)

/-- The observable result of one iteration of `wait`'s polling loop. -/
inductive WaitIterResult where
  | processDied (st : EngineState)
  | queueMissing (st : EngineState)
  | polled (o : WaitOutcome) (st : EngineState)
deriving DecidableEq, Repr

/-- One iteration of `DiffusionEngine.wait`'s loop: the liveness check runs
first (raising `IOError("Process died while waiting for result.")` when it
fails), and only then is the results channel drained and filtered. -/
def waitIteration (id : Nat) (st : EngineState) : WaitIterResult :=
  match is_alive st with
  | (false, st') => .processDied st'
  | (true, st') =>
    match st'.results with
    | none => .queueMissing st'
    | some q =>
      let (o, kept) := waitPoll id q
      .polled o { st' with results := some kept }

/-- **C10.**  In each `wait` iteration the liveness check precedes the drain;
with a dead worker the iteration raises `IOError` and the liveness check's
cleanup deletes all three channels, so a result envelope the worker enqueued
before dying — even a matching one already sitting in the results channel —
is never returned and no longer exists afterwards: worker death wins over an
already-delivered result. -/
theorem c10_dead_worker_discards_result (id : Nat) (st : EngineState)
    (q : List ResultEnvelope) (e : ResultEnvelope)
    (hdead : st.process = some false) (hq : st.results = some q)
    (hmem : e ∈ q) (hide : e.id = id) (hres : e.error = none) :
    waitIteration id st = WaitIterResult.processDied cleanupDead
    ∧ cleanupDead.results = none
    ∧ cleanupDead.instructions = none
    ∧ cleanupDead.intermediates = none
    ∧ ∀ o st', waitIteration id st ≠ WaitIterResult.polled o st' := by
  refine ⟨?_, rfl, rfl, rfl, ?_⟩
  · simp [waitIteration, is_alive, hdead]
  · intro o st'
    simp [waitIteration, is_alive, hdead]

/-- Closed witness for `c10_dead_worker_discards_result`: a dead worker with
id 4's successful result already in the channel. -/
theorem c10_dead_worker_discards_result_witness :
    waitIteration 4 ⟨some false, some [], some [⟨4, none, none, some 9⟩], some []⟩
      = WaitIterResult.processDied cleanupDead
    ∧ cleanupDead.results = none :=
  ⟨(c10_dead_worker_discards_result 4
      ⟨some false, some [], some [⟨4, none, none, some 9⟩], some []⟩
      [⟨4, none, none, some 9⟩] ⟨4, none, none, some 9⟩
      rfl rfl (List.mem_singleton_self _) rfl rfl).1,
    rfl⟩

/-- Events emitted by `terminate_process`, stamped with the elapsed time in
units of the fixed polling delay (`DiffusionEngineProcess.POLLING_DELAY_MS /
500` seconds, the `sleep_time` of the source). -/
inductive TermEvent where
  | stop (t : Nat)
  | term (t : Nat)
deriving DecidableEq, Repr

/-- Outcome of `terminate_process`: the event trace, whether the fatal
`IOError("Couldn't terminate process")` was raised, and whether the `del`
statements (process plus three channels) were reached. -/
structure TermResult where
  events : List TermEvent
  fatal : Bool
  cleaned : Bool
deriving DecidableEq, Repr

/-- The `while self.process.is_alive():` loop of `terminate_process`, with
elapsed time advancing by one delay unit per `time.sleep`.  `timeout > waited`
is the comparison exactly as written in the source (line 166).  When that
comparison is false the loop only sleeps and re-checks, so it need not
terminate; it therefore takes explicit fuel, `none` marking fuel exhaustion
with the loop still running. -/
def terminateLoop (alive : Nat → Bool) (timeout : Option Nat) :
    Nat → Nat → Option (List TermEvent × Nat)
  | 0, _ => none
  | fuel + 1, t =>
    if alive t then
      match timeout with
      | some T =>
        if T > t then some ([TermEvent.term t], t + 1)
        else terminateLoop alive timeout fuel (t + 1)
      | none => terminateLoop alive timeout fuel (t + 1)
    else some ([], t)

/-- `DiffusionEngine.terminate_process(timeout)` over a worker whose liveness
at elapsed time `t` (in delay units) is `alive t`: if a process attribute
exists and the worker is alive, dispatch `"stop"`, sleep one delay, run the
polling loop; afterwards send `terminate()` once more if still alive, sleep,
and finally either raise the fatal lifecycle error (before any `del` runs) or
delete the process and the three channels. -/
def terminate_process (alive : Nat → Bool) (timeout : Option Nat) (fuel : Nat)
    (hasProcess : Bool) : Option TermResult :=
  if !hasProcess then some ⟨[], false, false⟩
  else
    let first : Option (List TermEvent × Nat) :=
      if alive 0 then
        match terminateLoop alive timeout fuel 1 with
        | some (evs, t) => some (TermEvent.stop 0 :: evs, t)
        | none => none
      else some ([], 0)
    match first with
    | none => none
    | some (evs, t) =>
      let step2 : List TermEvent × Nat :=
        if alive t then (evs ++ [TermEvent.term t], t + 1) else (evs, t)
      if alive step2.2 then some ⟨step2.1, true, false⟩
      else some ⟨step2.1, false, true⟩

/-- **C4** (evaluating the code at the failing input).  With the default
`timeout=10` and a worker that stays alive for two delay units after the
`"stop"` dispatch (i.e. it would have exited gracefully well within the
timeout), the source's inverted comparison `timeout > waited` makes the
forced-kill fire at elapsed time 1 — one polling delay after the stop, while
`1 < 10`, i.e. before the timeout has elapsed — instead of only after ten
seconds of polling.  An unkillable worker shows the escalation tail (second
forced kill, then the fatal error), and a `timeout` already at 0 shows the
loop that can never exit (fuel exhaustion). -/
theorem c4_terminate_term_fires_before_timeout :
    terminate_process (fun t => decide (t < 2)) (some 10) 100 true
      = some ⟨[TermEvent.stop 0, TermEvent.term 1], false, true⟩
    ∧ (1 : Nat) < 10
    ∧ terminate_process (fun _ => true) (some 10) 100 true
      = some ⟨[TermEvent.stop 0, TermEvent.term 1, TermEvent.term 2], true, false⟩
    ∧ terminate_process (fun _ => true) (some 0) 50 true = none := by
  refine ⟨by decide, by decide, by decide, by decide⟩

/-- Whether a pipeline object currently lives on the inference device or on
the CPU host (`.to("cpu")` / `.to(self.device)`; torch's `.to` moves the same
object and returns it, so identity is preserved). -/
inductive Device where
  | onDevice
  | cpu
deriving DecidableEq, Repr

/-- A constructed pipeline object: an identity (the value of the construction
counter when the lazy constructor ran) plus its current device. -/
structure PipeObj where
  ident : Nat
  device : Device
deriving DecidableEq, Repr

/-- The per-variant slice of `DiffusionPipelineManager` state that the
pipeline lifecycle operates on: the `_pipeline` attribute (absent or
present), the `_pipeline_is_offloaded` attribute (collapsed to its
`getattr(..., False)` reading), a counter of lazy-constructor runs, and the
configuration fields needed by the setter claims (`_lora`,
`_chunking_size`).  The refiner and inpainter variants of the source are
character-for-character structurally identical to this one. -/
structure ManagerState where
  pipeline : Option PipeObj
  offloadedFlag : Bool
  constructions : Nat
  lora : Option (List (Str × ℚ))
  chunkingSize : Option Nat
deriving DecidableEq, Repr

/-- The lazy `pipeline` property: `if not hasattr(self, "_pipeline")`, run the
(expensive) constructor and remember the result; otherwise return the held
instance untouched. -/
def pipelineGet (st : ManagerState) : PipeObj × ManagerState :=
  match st.pipeline with
  | some p => (p, st)
  | none =>
    let p : PipeObj := ⟨st.constructions, Device.onDevice⟩
    (p, { st with pipeline := some p, constructions := st.constructions + 1 })

/-- `pipeline_is_offloaded`: `hasattr(self, "_pipeline") and
getattr(self, "_pipeline_is_offloaded", False)`. -/
def pipeline_is_offloaded (st : ManagerState) : Bool :=
  st.pipeline.isSome && st.offloadedFlag

/-- `offload_pipeline`: when a pipeline is held and not yet offloaded, move it
to the CPU host and set the offloaded flag. -/
def offload_pipeline (st : ManagerState) : ManagerState :=
  if st.pipeline.isSome ∧ pipeline_is_offloaded st = false then
    { st with
      pipeline := st.pipeline.map (fun p => { p with device := Device.cpu })
      offloadedFlag := true }
  else st

/-- `reload_pipeline`: when offloaded, move the held instance back to the
device and clear the flag. -/
def reload_pipeline (st : ManagerState) : ManagerState :=
  if pipeline_is_offloaded st then
    { st with
      pipeline := st.pipeline.map (fun p => { p with device := Device.onDevice })
      offloadedFlag := false }
  else st

/-- `unload_pipeline` / the `pipeline` deleter: drop the held instance and the
offloaded flag. -/
def unload_pipeline (st : ManagerState) : ManagerState :=
  if st.pipeline.isSome then { st with pipeline := none, offloadedFlag := false } else st

/-- **C6.**  `offload_pipeline` followed by `reload_pipeline` returns a held
pipeline to the loaded-on-device state without reconstruction: afterwards the
held instance is the previously constructed one (same identity, back on
device), `pipeline_is_offloaded` is false, the construction counter is
unchanged, and the next access through the lazy property returns the held
instance without running the constructor.  The refiner and inpainter variants
of the source are structurally identical. -/
theorem c6_offload_reload_round_trip (st : ManagerState) (p : PipeObj)
    (h : st.pipeline = some p) :
    (reload_pipeline (offload_pipeline st)).pipeline
        = some ⟨p.ident, Device.onDevice⟩
    ∧ pipeline_is_offloaded (reload_pipeline (offload_pipeline st)) = false
    ∧ (reload_pipeline (offload_pipeline st)).constructions = st.constructions
    ∧ (pipelineGet (reload_pipeline (offload_pipeline st))).1
        = ⟨p.ident, Device.onDevice⟩
    ∧ (pipelineGet (reload_pipeline (offload_pipeline st))).2
        = reload_pipeline (offload_pipeline st) := by
  cases hf : st.offloadedFlag with
  | false =>
    simp [offload_pipeline, reload_pipeline, pipeline_is_offloaded, h, hf, pipelineGet]
  | true =>
    simp [offload_pipeline, reload_pipeline, pipeline_is_offloaded, h, hf, pipelineGet]

/-- Closed witness for `c6_offload_reload_round_trip` at a concrete state. -/
theorem c6_offload_reload_round_trip_witness :
    (reload_pipeline (offload_pipeline
        ⟨some ⟨0, Device.onDevice⟩, false, 1, some [], none⟩)).pipeline
      = some ⟨0, Device.onDevice⟩
    ∧ (reload_pipeline (offload_pipeline
        ⟨some ⟨0, Device.onDevice⟩, false, 1, some [], none⟩)).constructions = 1 :=
  ⟨(c6_offload_reload_round_trip ⟨some ⟨0, Device.onDevice⟩, false, 1, some [], none⟩
      ⟨0, Device.onDevice⟩ rfl).1,
    (c6_offload_reload_round_trip ⟨some ⟨0, Device.onDevice⟩, false, 1, some [], none⟩
      ⟨0, Device.onDevice⟩ rfl).2.2.1⟩

/-- One entry of a lora list argument: a bare name (weight defaults to 1), or
an explicit `(name, weight)` tuple (the source also accepts 2-element lists,
normalized to tuples). -/
inductive LoraItem where
  | plain (name : Str)
  | weighted (name : Str) (weight : ℚ)
deriving DecidableEq, Repr

/-- The accepted shapes of the `lora` setter argument. -/
inductive LoraInput where
  | single (name : Str)
  | singleWeighted (name : Str) (weight : ℚ)
  | multi (items : List LoraItem)
deriving DecidableEq, Repr

/-- POSIX `os.path.isabs`. -/
def isAbs (s : Str) : Bool :=
  match s with
  | c :: _ => c == '/'
  | [] => false

/-- `os.path.join(self.engine_lora_dir, model)` applied to relative names. -/
def resolveLoraPath (dir m : Str) : Str := if isAbs m then m else dir ++ '/' :: m

def loraItemPair : LoraItem → Str × ℚ
  | .plain n => (n, 1)
  | .weighted n w => (n, w)

/-- The shape-normalization prefix of the `lora` setter. -/
def loraOfInput : LoraInput → List (Str × ℚ)
  | .single n => [(n, 1)]
  | .singleWeighted n w => [(n, w)]
  | .multi items => items.map loraItemPair

/-- The path-resolution loop of the `lora` setter. -/
def resolveLora (dir : Str) (l : List (Str × ℚ)) : List (Str × ℚ) :=
  l.map fun mw => (resolveLoraPath dir mw.1, mw.2)

/-- The `lora` setter: normalize the argument, resolve relative paths, and
only when the result differs from `getattr(self, "_lora", [])` unload the
pipeline and store the new value; `None` clears the list, unloading only when
a non-empty `_lora` attribute existed. -/
def set_lora (dir : Str) (st : ManagerState) (newLora : Option LoraInput) : ManagerState :=
  match newLora with
  | none =>
    let st' := if st.lora.isSome ∧ (st.lora.getD []).length > 0 then unload_pipeline st else st
    { st' with lora := some [] }
  | some input =>
    let lora := resolveLora dir (loraOfInput input)
    if st.lora.getD [] ≠ lora then { (unload_pipeline st) with lora := some lora } else st

/-- The `chunking_size` setter: a plain attribute write — "This doesn't
require a restart". -/
def set_chunking_size (st : ManagerState) (v : Nat) : ManagerState :=
  { st with chunkingSize := some v }

/-- **C7.**  Setter discipline with a loaded pipeline: assigning a lora value
that differs (after normalization) from the current one unloads the pipeline
so that the next access re-runs the constructor; assigning the current value
is a complete no-op (nothing unloaded, state identical); and the
`chunking_size` setter never touches the loaded pipeline, whose identity and
construction count are preserved. -/
theorem c7_cache_relevant_setters_unload (dir : Str) (st : ManagerState)
    (input : LoraInput) (p : PipeObj) (hld : st.pipeline = some p) :
    (st.lora.getD [] ≠ resolveLora dir (loraOfInput input) →
        (set_lora dir st (some input)).pipeline = none
        ∧ (set_lora dir st (some input)).lora
            = some (resolveLora dir (loraOfInput input))
        ∧ (pipelineGet (set_lora dir st (some input))).2.constructions
            = st.constructions + 1)
    ∧ (st.lora.getD [] = resolveLora dir (loraOfInput input) →
        set_lora dir st (some input) = st)
    ∧ (∀ v, (set_chunking_size st v).pipeline = some p
        ∧ (set_chunking_size st v).constructions = st.constructions) := by
  refine ⟨?_, ?_, ?_⟩
  · intro hne
    simp [set_lora, hne, unload_pipeline, hld, pipelineGet]
  · intro heq
    simp [set_lora, heq]
  · intro v
    simp [set_chunking_size, hld]

/-- Closed witness for `c7_cache_relevant_setters_unload`: a manager holding
pipeline 0 with an empty lora list; assigning a singleton lora unloads and the
next access reconstructs, re-assigning the empty list is a no-op, and setting
the chunking size keeps pipeline 0. -/
theorem c7_cache_relevant_setters_unload_witness :
    ((set_lora ['/', 'd'] ⟨some ⟨0, Device.onDevice⟩, false, 1, some [], none⟩
        (some (LoraInput.single ['x']))).pipeline = none
      ∧ (pipelineGet (set_lora ['/', 'd']
          ⟨some ⟨0, Device.onDevice⟩, false, 1, some [], none⟩
          (some (LoraInput.single ['x'])))).2.constructions = 2)
    ∧ set_lora ['/', 'd'] ⟨some ⟨0, Device.onDevice⟩, false, 1, some [], none⟩
        (some (LoraInput.multi [])) = ⟨some ⟨0, Device.onDevice⟩, false, 1, some [], none⟩
    ∧ (set_chunking_size ⟨some ⟨0, Device.onDevice⟩, false, 1, some [], none⟩ 32).pipeline
        = some ⟨0, Device.onDevice⟩ := by
  have h := c7_cache_relevant_setters_unload ['/', 'd']
    ⟨some ⟨0, Device.onDevice⟩, false, 1, some [], none⟩
    (LoraInput.single ['x']) ⟨0, Device.onDevice⟩ rfl
  have h2 := c7_cache_relevant_setters_unload ['/', 'd']
    ⟨some ⟨0, Device.onDevice⟩, false, 1, some [], none⟩
    (LoraInput.multi []) ⟨0, Device.onDevice⟩ rfl
  exact ⟨⟨(h.1 (by decide)).1, (h.1 (by decide)).2.2⟩, h2.2.1 (by decide), (h2.2.2 32).1⟩

/-- The slice of manager state touched by the accelerated-engine flag logic of
`__call__`: the real `_tensorrt_enabled` attribute, the attribute the
misspelled write at line 2775 (`self.tenssort_is_enabled = True`) actually
creates, whether a pipeline is loaded, and whether compiled engines are ready
(which decides if the setter unloads the pipeline on a flag flip). -/
structure TrtState where
  tensorrtEnabled : Bool
  tenssortEnabled : Option Bool
  pipelineLoaded : Bool
  tensorrtReady : Bool
deriving DecidableEq, Repr

/-- The `tensorrt_is_enabled` setter: if the value changes while compiled
engines are ready, unload the pipeline; then store the value. -/
def set_tensorrt_is_enabled (st : TrtState) (v : Bool) : TrtState :=
  let st' := if v ≠ st.tensorrtEnabled ∧ st.tensorrtReady then
      { st with pipelineLoaded := false }
    else st
  { st' with tensorrtEnabled := v }

/-- The pre-call geometry gate of `__call__` (lines 2765-2775): disable
TensorRT when the called width or height is below the engine size, or when
the dimensions differ from it with chunking disabled; on the matching path
the source's misspelled assignment creates the `tenssort_is_enabled`
attribute instead of enabling the real flag. -/
def callTrtGate (st : TrtState) (calledW calledH size chunkSize : Nat) : TrtState :=
  if calledW < size then set_tensorrt_is_enabled st false
  else if calledH < size then set_tensorrt_is_enabled st false
  else if (calledW ≠ size ∨ calledH ≠ size) ∧ chunkSize = 0 then
    set_tensorrt_is_enabled st false
  else { st with tenssortEnabled := some true }

/-- A `__call__` completes normally or propagates the body's exception; either
way the `finally` block has already run on the returned state. -/
inductive CallResult where
  | ok (st : TrtState)
  | raised (st : TrtState)
deriving DecidableEq, Repr

/-- The accelerated-engine flag path of `DiffusionPipelineManager.__call__`:
apply the geometry gate, run the body (which may raise — modelled by the
`bodyRaises` input), and in the guaranteed `finally` block execute
`self.tensorrt_is_enabled = True`. -/
def managerCallTrt (st : TrtState) (calledW calledH size chunkSize : Nat)
    (bodyRaises : Bool) : CallResult :=
  let st1 := callTrtGate st calledW calledH size chunkSize
  let st2 := set_tensorrt_is_enabled st1 true
  if bodyRaises then .raised st2 else .ok st2

/-- The state a `CallResult` leaves behind (identical on both exits). -/
def callResultState : CallResult → TrtState
  | .ok st => st
  | .raised st => st

/-- **C5.**  On every exit path of `__call__` — normal return and exception
alike — `tensorrt_is_enabled` is true afterwards, including when the geometry
gate disabled it for the call: the `finally` block's
`self.tensorrt_is_enabled = True` runs unconditionally.  (The line-2775 typo
only fails to re-enable the flag mid-call on the matching-geometry path; it
does not affect the post-call contract.) -/
theorem c5_tensorrt_reenabled_on_every_exit (st : TrtState)
    (calledW calledH size chunkSize : Nat) (bodyRaises : Bool) :
    (callResultState (managerCallTrt st calledW calledH size chunkSize
        bodyRaises)).tensorrtEnabled = true
    ∧ (managerCallTrt st calledW calledH size chunkSize true
        = CallResult.raised (callResultState
            (managerCallTrt st calledW calledH size chunkSize true))) := by
  constructor
  · cases bodyRaises with
    | false => simp [managerCallTrt, callResultState, set_tensorrt_is_enabled]
    | true => simp [managerCallTrt, callResultState, set_tensorrt_is_enabled]
  · simp [managerCallTrt, callResultState]

/-- The skip test of `__call__`'s refinement phase, exactly as written:
`refiner_strength is not None and refiner_strength <= 0`. -/
def skipTest : Option ℚ → Bool
  | some s => decide (s ≤ 0)
  | none => false

/-- The strength the refinement call runs with (line 2814):
`refiner_strength if refiner_strength else self.refiner_strength`, i.e. the
argument unless it is `None` or falsy `0.0`, else the configured strength. -/
def strengthInEffect (arg : Option ℚ) (cfg : ℚ) : ℚ :=
  match arg with
  | some s => if s = 0 then cfg else s
  | none => cfg

/-- The per-image refinement loop: images flagged NSFW are passed through
untouched, every other image is replaced by the refiner's output. -/
def refineImages (strength : ℚ) (primary : List (Nat × Bool))
    (refineImg : ℚ → Nat → Nat) : List Nat :=
  primary.map fun ib => if ib.2 then ib.1 else refineImg strength ib.1

/-- The refinement phase of `DiffusionPipelineManager.__call__` (lines
2785-2864) at the level of the images list: `primary` pairs each primary
image with its NSFW flag; when no refiner is configured, or the skip test
fires, the primary images are returned unmodified. -/
def managerCallRefine (refinerConfigured : Bool) (arg : Option ℚ) (cfg : ℚ)
    (primary : List (Nat × Bool)) (refineImg : ℚ → Nat → Nat) : List Nat :=
  if refinerConfigured then
    if skipTest arg then primary.map Prod.fst
    else refineImages (strengthInEffect arg cfg) primary refineImg
  else primary.map Prod.fst

/-- **C3, counterexample.**  A call with a refiner configured, no per-call
`refiner_strength` argument, and the manager's configured strength equal to 0:
the strength in effect for the call is 0, yet the refinement phase runs (the
skip test only looks at the explicit argument), modifying the primary result. -/
theorem c3_refiner_zero_strength_counterexample :
    strengthInEffect none 0 = 0
    ∧ managerCallRefine true none 0 [(5, false)] (fun _ i => i + 1) = [6]
    ∧ managerCallRefine true none 0 [(5, false)] (fun _ i => i + 1)
        ≠ [(5, false)].map Prod.fst :=
  ⟨rfl, rfl, by decide⟩

/-- **C3, amended.**  The refinement phase is skipped — returning the primary
result unmodified — exactly when no refiner is configured or the per-call
`refiner_strength` argument is explicitly supplied with a value ≤ 0.  When
the argument is omitted, the configured strength is substituted with no zero
test, so refinement proceeds even if that strength is 0. -/
theorem c3_refiner_skip_amended :
    (∀ (arg : Option ℚ) (cfg : ℚ) (primary : List (Nat × Bool))
        (rf : ℚ → Nat → Nat) (s : ℚ), arg = some s → s ≤ 0 →
        managerCallRefine true arg cfg primary rf = primary.map Prod.fst)
    ∧ (∀ (cfg : ℚ) (primary : List (Nat × Bool)) (rf : ℚ → Nat → Nat) (s : ℚ),
        0 < s →
        managerCallRefine true (some s) cfg primary rf = refineImages s primary rf)
    ∧ (∀ (cfg : ℚ) (primary : List (Nat × Bool)) (rf : ℚ → Nat → Nat),
        managerCallRefine true none cfg primary rf = refineImages cfg primary rf)
    ∧ (∀ (arg : Option ℚ) (cfg : ℚ) (primary : List (Nat × Bool))
        (rf : ℚ → Nat → Nat),
        managerCallRefine false arg cfg primary rf = primary.map Prod.fst) := by
  refine ⟨?_, ?_, ?_, ?_⟩
  · rintro arg cfg primary rf s rfl hs
    simp [managerCallRefine, skipTest, hs]
  · intro cfg primary rf s hs
    simp [managerCallRefine, skipTest, not_le.mpr hs, strengthInEffect, ne_of_gt hs]
  · intro cfg primary rf
    simp [managerCallRefine, skipTest, strengthInEffect]
  · intro arg cfg primary rf
    simp [managerCallRefine]

/-- Closed witness for `c3_refiner_skip_amended`: an explicit strength-0
argument skips refinement and returns the primary unmodified; an explicit
positive strength refines with that strength. -/
theorem c3_refiner_skip_amended_witness :
    managerCallRefine true (some 0) 1 [(5, false)] (fun _ i => i + 1) = [5]
    ∧ managerCallRefine true (some 1) 0 [(5, false), (7, true)] (fun _ i => i + 1)
        = [6, 7] := by
  constructor
  · have h := c3_refiner_skip_amended.1 (some 0) 1 [(5, false)]
      (fun _ i => i + 1) 0 rfl le_rfl
    rw [h]
    rfl
  · have h := c3_refiner_skip_amended.2.1 0 [(5, false), (7, true)]
      (fun _ i => i + 1) 1 one_pos
    rw [h]
    rfl

/-- Python's built-in `round` on the exact value: round half to even.
Float arithmetic in the geometry path is modelled exactly on `ℚ`. -/
def pythonRound (q : ℚ) : ℤ :=
  if q - ⌊q⌋ < 1 / 2 then ⌊q⌋
  else if 1 / 2 < q - ⌊q⌋ then ⌊q⌋ + 1
  else if 2 ∣ ⌊q⌋ then ⌊q⌋ else ⌊q⌋ + 1

theorem pythonRound_diff_le (q : ℚ) : |q - (pythonRound q : ℚ)| ≤ 1 / 2 := by
  have hf : (⌊q⌋ : ℚ) ≤ q := Int.floor_le q
  have hf1 : q < (⌊q⌋ : ℚ) + 1 := Int.lt_floor_add_one q
  unfold pythonRound
  by_cases h1 : q - (⌊q⌋ : ℚ) < 1 / 2
  · rw [if_pos h1, abs_of_nonneg (by linarith)]
    linarith
  · rw [if_neg h1]
    by_cases h2 : (1 : ℚ) / 2 < q - (⌊q⌋ : ℚ)
    · rw [if_pos h2]
      push_cast
      rw [abs_of_nonpos (by linarith)]
      linarith
    · rw [if_neg h2]
      have heq : q - (⌊q⌋ : ℚ) = 1 / 2 := le_antisymm (not_lt.mp h2) (not_lt.mp h1)
      by_cases h3 : (2:ℤ) ∣ ⌊q⌋
      · rw [if_pos h3, abs_of_nonneg (by linarith)]
        linarith
      · rw [if_neg h3]
        push_cast
        rw [abs_of_nonpos (by linarith)]
        linarith

theorem pythonRound_nearest (q : ℚ) (z : ℤ) :
    |q - (pythonRound q : ℚ)| ≤ |q - (z : ℚ)| := by
  by_cases hz : z = pythonRound q
  · rw [hz]
  · have h1 : (1 : ℚ) ≤ |(z : ℚ) - (pythonRound q : ℚ)| := by
      have : (1 : ℤ) ≤ |z - pythonRound q| := Int.one_le_abs (sub_ne_zero.mpr hz)
      calc (1 : ℚ) = ((1 : ℤ) : ℚ) := by norm_num
        _ ≤ ((|z - pythonRound q| : ℤ) : ℚ) := by exact_mod_cast this
        _ = |(z : ℚ) - (pythonRound q : ℚ)| := by push_cast; rfl
    have h2 := pythonRound_diff_le q
    have h3 : |(z : ℚ) - (pythonRound q : ℚ)|
        ≤ |(z : ℚ) - q| + |q - (pythonRound q : ℚ)| := abs_sub_le _ _ _
    have h4 : |q - (z : ℚ)| = |(z : ℚ) - q| := abs_sub_comm _ _
    linarith

theorem pythonRound_mult8_nearest (x : ℚ) (m : ℤ) (hm : (8:ℤ) ∣ m) :
    |x - ((8 * pythonRound (x / 8) : ℤ) : ℚ)| ≤ |x - (m : ℚ)| := by
  obtain ⟨k, rfl⟩ := hm
  have h := pythonRound_nearest (x / 8) k
  have e1 : x - ((8 * pythonRound (x / 8) : ℤ) : ℚ)
      = 8 * (x / 8 - (pythonRound (x / 8) : ℚ)) := by
    push_cast
    ring
  have e2 : x - ((8 * k : ℤ) : ℚ) = 8 * (x / 8 - (k : ℚ)) := by
    push_cast
    ring
  rw [e1, e2, abs_mul, abs_mul]
  have h8 : |(8 : ℚ)| = 8 := by norm_num
  rw [h8]
  linarith

/-- The upscale factor of the refinement pass (lines 2828-2833):
`image_scale = 1`, raised to `refiner_size / width` when the width falls
short, then to the max with `refiner_size / height` when the height does. -/
def refineScale (w h rs : Nat) : ℚ :=
  let s : ℚ := 1
  let s := if w < rs then (rs : ℚ) / (w : ℚ) else s
  if h < rs then max s ((rs : ℚ) / (h : ℚ)) else s

/-- The geometry trace of one refinement pass over a non-NSFW output image
(lines 2827-2857): the dimensions the refiner is invoked at, whether and in
which coordinate space the PIL latent callback is wrapped, and the dimensions
of the image stored back into the result. -/
structure RefineTrace where
  ranAt : ℤ × ℤ
  callbackAdapted : Bool
  callbackDims : Nat × Nat
  finalDims : Nat × Nat
deriving DecidableEq, Repr

/-- One refinement pass at the geometry level.  In the upscale branch the new
width/height are `8 * round((dim * image_scale) / 8)`, the image is resized up,
a present PIL latent callback is wrapped to resize its images back to the
original `(width, height)`, and after the refiner call the output is resized
back to the original dimensions whenever `image_scale != 1`. -/
def refineImagePass (w h rs : Nat) (scaleToRefinerSize : Bool)
    (hasPilCallback : Bool) : RefineTrace :=
  if (w < rs ∨ h < rs) ∧ scaleToRefinerSize then
    { ranAt := (8 * pythonRound ((w : ℚ) * refineScale w h rs / 8),
        8 * pythonRound ((h : ℚ) * refineScale w h rs / 8))
      callbackAdapted := hasPilCallback
      callbackDims := (w, h)
      finalDims := if refineScale w h rs ≠ 1 then (w, h)
        else ((8 * pythonRound ((w : ℚ) * refineScale w h rs / 8)).toNat,
          (8 * pythonRound ((h : ℚ) * refineScale w h rs / 8)).toNat) }
  else
    { ranAt := ((w : ℤ), (h : ℤ))
      callbackAdapted := false
      callbackDims := (w, h)
      finalDims := (w, h) }

theorem refineScale_spec (w h rs : Nat) (hw : 0 < w) (hh : 0 < h)
    (hsmall : w < rs ∨ h < rs) :
    (w : ℚ) * refineScale w h rs ≥ rs ∧ (h : ℚ) * refineScale w h rs ≥ rs
    ∧ 1 < refineScale w h rs
    ∧ ∀ s' : ℚ, (w : ℚ) * s' ≥ rs → (h : ℚ) * s' ≥ rs →
        refineScale w h rs ≤ s' := by
  have hwq : (0 : ℚ) < w := by exact_mod_cast hw
  have hhq : (0 : ℚ) < h := by exact_mod_cast hh
  by_cases h1 : w < rs <;> by_cases h2 : h < rs
  · have hwr : (w : ℚ) < rs := by exact_mod_cast h1
    have hhr : (h : ℚ) < rs := by exact_mod_cast h2
    have e : refineScale w h rs = max ((rs : ℚ) / w) ((rs : ℚ) / h) := by
      simp [refineScale, h1, h2]
    refine ⟨?_, ?_, ?_, ?_⟩
    · rw [e]
      calc (rs : ℚ) = w * ((rs : ℚ) / w) := by field_simp
        _ ≤ w * max ((rs : ℚ) / w) ((rs : ℚ) / h) := by
            exact mul_le_mul_of_nonneg_left (le_max_left _ _) (le_of_lt hwq)
    · rw [e]
      calc (rs : ℚ) = h * ((rs : ℚ) / h) := by field_simp
        _ ≤ h * max ((rs : ℚ) / w) ((rs : ℚ) / h) := by
            exact mul_le_mul_of_nonneg_left (le_max_right _ _) (le_of_lt hhq)
    · rw [e]
      have : 1 < (rs : ℚ) / w := (one_lt_div hwq).mpr hwr
      exact lt_max_of_lt_left this
    · intro s' hws hhs
      rw [e, max_le_iff]
      constructor
      · rw [div_le_iff hwq]
        linarith [hws]
      · rw [div_le_iff hhq]
        linarith [hhs]
  · have hwr : (w : ℚ) < rs := by exact_mod_cast h1
    have hhr : (rs : ℚ) ≤ h := by exact_mod_cast (not_lt.mp h2)
    have e : refineScale w h rs = (rs : ℚ) / w := by
      simp [refineScale, h1, h2]
    have hgt : 1 < (rs : ℚ) / w := (one_lt_div hwq).mpr hwr
    refine ⟨?_, ?_, ?_, ?_⟩
    · rw [e]
      field_simp
    · rw [e]
      nlinarith [hgt, hhr]
    · rw [e]
      exact hgt
    · intro s' hws _
      rw [e, div_le_iff hwq]
      linarith [hws]
  · have hhr : (h : ℚ) < rs := by exact_mod_cast h2
    have hwr : (rs : ℚ) ≤ w := by exact_mod_cast (not_lt.mp h1)
    have hgt : 1 < (rs : ℚ) / h := (one_lt_div hhq).mpr hhr
    have e : refineScale w h rs = max 1 ((rs : ℚ) / h) := by
      simp [refineScale, h1, h2]
    have e' : refineScale w h rs = (rs : ℚ) / h := by
      rw [e, max_eq_right (le_of_lt hgt)]
    refine ⟨?_, ?_, ?_, ?_⟩
    · rw [e']
      nlinarith [hgt, hwr]
    · rw [e']
      field_simp
    · rw [e']
      exact hgt
    · intro s' _ hhs
      rw [e', div_le_iff hhq]
      linarith [hhs]
  · exact absurd hsmall (by simp [h1, h2])

/-- **C9.**  For a refinement pass over a non-NSFW image whose width or height
is below the refiner size with `scale_to_refiner_size` on: the upscale factor
is exactly the minimal factor bringing both dimensions up to the refiner
size; the refinement call runs at dimensions that are multiples of 8, each a
nearest multiple of 8 to the correspondingly scaled dimension; a present PIL
latent callback is adapted and reports in the original `(width, height)`
coordinates; and the final stored image is resized back to the original
width and height. -/
theorem c9_refiner_upscale_geometry (w h rs : Nat) (hw : 0 < w) (hh : 0 < h)
    (hsmall : w < rs ∨ h < rs) (hasCb : Bool) :
    ((w : ℚ) * refineScale w h rs ≥ rs ∧ (h : ℚ) * refineScale w h rs ≥ rs
      ∧ (∀ s' : ℚ, (w : ℚ) * s' ≥ rs → (h : ℚ) * s' ≥ rs → refineScale w h rs ≤ s'))
    ∧ ((8:ℤ) ∣ (refineImagePass w h rs true hasCb).ranAt.1
      ∧ (8:ℤ) ∣ (refineImagePass w h rs true hasCb).ranAt.2)
    ∧ (∀ m : ℤ, (8:ℤ) ∣ m →
        |(w : ℚ) * refineScale w h rs
            - ((refineImagePass w h rs true hasCb).ranAt.1 : ℚ)|
          ≤ |(w : ℚ) * refineScale w h rs - (m : ℚ)|)
    ∧ (∀ m : ℤ, (8:ℤ) ∣ m →
        |(h : ℚ) * refineScale w h rs
            - ((refineImagePass w h rs true hasCb).ranAt.2 : ℚ)|
          ≤ |(h : ℚ) * refineScale w h rs - (m : ℚ)|)
    ∧ (refineImagePass w h rs true hasCb).callbackAdapted = hasCb
    ∧ (refineImagePass w h rs true hasCb).callbackDims = (w, h)
    ∧ (refineImagePass w h rs true hasCb).finalDims = (w, h) := by
  obtain ⟨hws, hhs, hgt, hmin⟩ := refineScale_spec w h rs hw hh hsmall
  have hne : refineScale w h rs ≠ 1 := ne_of_gt hgt
  have e : refineImagePass w h rs true hasCb =
      { ranAt := (8 * pythonRound ((w : ℚ) * refineScale w h rs / 8),
          8 * pythonRound ((h : ℚ) * refineScale w h rs / 8))
        callbackAdapted := hasCb
        callbackDims := (w, h)
        finalDims := (w, h) } := by
    unfold refineImagePass
    rw [if_pos (show (w < rs ∨ h < rs) ∧ (true : Bool) = true from ⟨hsmall, rfl⟩),
      if_pos hne]
  refine ⟨⟨hws, hhs, hmin⟩, ?_, ?_, ?_, ?_, ?_, ?_⟩
  · rw [e]
    exact ⟨Dvd.intro _ rfl, Dvd.intro _ rfl⟩
  · intro m hm
    rw [e]
    exact pythonRound_mult8_nearest _ m hm
  · intro m hm
    rw [e]
    exact pythonRound_mult8_nearest _ m hm
  · rw [e]
  · rw [e]
  · rw [e]

/-- Closed witness for `c9_refiner_upscale_geometry`: a 100×200 image against
refiner size 101 is refined at multiple-of-8 dimensions and stored back at
100×200. -/
theorem c9_refiner_upscale_geometry_witness :
    ((8:ℤ) ∣ (refineImagePass 100 200 101 true true).ranAt.1
      ∧ (8:ℤ) ∣ (refineImagePass 100 200 101 true true).ranAt.2)
    ∧ (refineImagePass 100 200 101 true true).finalDims = (100, 200) :=
  ⟨(c9_refiner_upscale_geometry 100 200 101 (by decide) (by decide)
      (Or.inl (by decide)) true).2.1,
    (c9_refiner_upscale_geometry 100 200 101 (by decide) (by decide)
      (Or.inl (by decide)) true).2.2.2.2.2.2⟩
